import Mathlib

/-!
Shallow embedding of `src/pick.py` (weighted card registry).
Weights are modelled as exact rationals; the registry state is the in-memory
card list plus the tag-ban map.  Python's `ZeroDivisionError` in
`set_normalized_probability` is modelled by an explicit error outcome, since
`main` catches it at the command boundary.  Randomness in `pick_card` is an
oracle `rand : Nat → ℚ` supplying the values `random() * total`; the chosen
index follows `random.choices`' cumulative-weight bisection.
-/

namespace PickCard

/-- A card record: `{'name': str, 'weight': float, 'tags': set}`. -/
structure Card where
  name : String
  weight : ℚ
  tags : List String
deriving DecidableEq

/-- The registry state: the ordered card list and the tag-ban map
(`defaultdict(bool)`, so absent tags read as `false`). -/
structure State where
  cards : List Card
  ban_status : String → Bool

/-- `CardManager._is_card_banned`: a card is banned iff one of its tags is banned. -/
def is_card_banned (s : State) (c : Card) : Bool :=
  c.tags.any (fun t => s.ban_status t)

/-- Sum of the weights of a list of cards. -/
def sumWeights (cs : List Card) : ℚ :=
  (cs.map Card.weight).sum

/-- `CardManager._get_total_weight`: total over all cards when `includeBanned`,
otherwise total over the non-banned cards. -/
def total_weight (s : State) (includeBanned : Bool) : ℚ :=
  if includeBanned then sumWeights s.cards
  else sumWeights (s.cards.filter (fun c => !(is_card_banned s c)))

/-- Helper for `_find_card`: first index and card whose name matches. -/
def findCardList : List Card → String → Option (Nat × Card)
  | [], _ => none
  | c :: cs, n =>
    if c.name = n then some (0, c)
    else (findCardList cs n).map (fun p => (p.1 + 1, p.2))

/-- `CardManager._find_card`: `(i, card)` of the first card named `name`,
`none` when absent (Python returns `(-1, None)`). -/
def find_card (s : State) (name : String) : Option (Nat × Card) :=
  findCardList s.cards name

/-- `CardManager._get_normalized_probability`: weight over the non-banned
total, as a percentage; `0` for a missing or banned card or a zero total. -/
def get_normalized_probability (s : State) (name : String) : ℚ :=
  let total := total_weight s false
  match find_card s name with
  | none => 0
  | some (_, c) =>
    if is_card_banned s c then 0
    else if total = 0 then 0
    else c.weight / total * 100

/-- `CardManager.add_card`: clamp the weight to ≥ 0, update the existing card
or append a new one, and return the resulting normalized probability. -/
def add_card (s : State) (name : String) (w : ℚ) : ℚ × State :=
  let w' := max 0 w
  let s' : State :=
    match find_card s name with
    | some (i, c) => { s with cards := s.cards.set i { c with weight := w' } }
    | none => { s with cards := s.cards ++ [{ name := name, weight := w', tags := [] }] }
  (get_normalized_probability s' name, s')

/-- Outcome of `set_normalized_probability`: Python returns `False` for a
missing card, raises `ZeroDivisionError` (caught in `main`) at target 100 with
competing weight, and returns `True` otherwise. -/
inductive SetOutcome where
  | ok
  | notFound
  | divisionByZero
deriving DecidableEq

/-- `CardManager.set_normalized_probability`: delete on target 0; anchor to
weight 1 when the rest of the pool is empty; otherwise solve
`w = t·others/(100−t)` clamped to ≥ 0, failing with a division error when
`t = 100`. -/
def set_normalized_probability (s : State) (name : String) (t : ℚ) :
    SetOutcome × State :=
  match find_card s name with
  | none => (SetOutcome.notFound, s)
  | some (i, c) =>
    if t = 0 then (SetOutcome.ok, { s with cards := s.cards.eraseIdx i })
    else
      let total := total_weight s true
      let others := total - c.weight
      if others = 0 then
        (SetOutcome.ok, { s with cards := s.cards.set i { c with weight := 1 } })
      else if (100 : ℚ) - t = 0 then (SetOutcome.divisionByZero, s)
      else
        (SetOutcome.ok,
          { s with cards := s.cards.set i { c with weight := max 0 (t * others / (100 - t)) } })

/-- Sum of weights of the cards carrying `tag` (the `tag_cards` of
`adjust_tag_probability`). -/
def tagWeight (s : State) (tag : String) : ℚ :=
  sumWeights (s.cards.filter (fun c => c.tags.contains tag))

/-- Sum of weights of the cards not carrying `tag` (the `other_cards`). -/
def otherWeight (s : State) (tag : String) : ℚ :=
  sumWeights (s.cards.filter (fun c => !(c.tags.contains tag)))

/-- `CardManager.adjust_tag_probability`: the boolean is the Python return
value; on `False` the card list is untouched (every `return False` in the
source precedes the mutation loop). -/
def adjust_tag_probability (s : State) (tag : String) (t : ℚ) : Bool × State :=
  let tagCards := s.cards.filter (fun c => c.tags.contains tag)
  if tagCards.isEmpty then (false, s)
  else
    let tw := tagWeight s tag
    let ow := otherWeight s tag
    if t = 0 then
      let zeroTagged := fun c => if c.tags.contains tag then { c with weight := 0 } else c
      (true, { s with cards := s.cards.map zeroTagged })
    else if t = 100 then
      if ow > 0 then (false, s) else (true, s)
    else if tw = 0 then (false, s)
    else
      let k := t * ow / (tw * (100 - t))
      let scaleTagged := fun c => if c.tags.contains tag then { c with weight := c.weight * k } else c
      (true, { s with cards := s.cards.map scaleTagged })

/-- `CardManager.delete_card`. -/
def delete_card (s : State) (name : String) : Bool × State :=
  match find_card s name with
  | none => (false, s)
  | some (i, _) => (true, { s with cards := s.cards.eraseIdx i })

/-- `CardManager.tag_card`: add `tag` to the card's tag set (idempotent). -/
def tag_card (s : State) (name tag : String) : Bool × State :=
  match find_card s name with
  | none => (false, s)
  | some (i, c) =>
    let c' := { c with tags := if c.tags.contains tag then c.tags else c.tags ++ [tag] }
    (true, { s with cards := s.cards.set i c' })

/-- Python's `str.strip()`: drop leading and trailing whitespace. -/
def stripString (s : String) : String :=
  ⟨((s.data.dropWhile Char.isWhitespace).reverse.dropWhile Char.isWhitespace).reverse⟩

/-- `CardManager.ban_tag`: strip the status token, reject anything other than
`"0"`/`"1"`, and record the flag for `tag`. -/
def ban_tag (s : State) (tag status : String) : Bool × State :=
  let st := stripString status
  if st = "0" ∨ st = "1" then
    (true, { s with ban_status := fun t => if t = tag then st == "1" else s.ban_status t })
  else (false, s)

/-- Index selected by `random.choices`' cumulative-weight bisection on the
value `r = random() * total`: the first index whose cumulative weight exceeds
`r`, clamped to the last index. -/
def pickIndex : List ℚ → ℚ → Nat
  | [], _ => 0
  | [_], _ => 0
  | w :: w2 :: ws, r => if r < w then 0 else pickIndex (w2 :: ws) (r - w) + 1

/-- `CardManager.pick_card`: `none` models `return None` ("pool empty") when
the non-banned total is ≤ 0; otherwise `count` independent draws, returned as
a single name when `count = 1` and as the list of names otherwise. -/
def pick_card (s : State) (count : Nat) (rand : Nat → ℚ) :
    Option (String ⊕ List String) :=
  let valid := s.cards.filter (fun c => !(is_card_banned s c))
  let total := sumWeights valid
  if total ≤ 0 then none
  else
    let results := (List.range count).map
      (fun i => (valid.getD (pickIndex (valid.map Card.weight) (rand i))
        { name := "", weight := 0, tags := [] }).name)
    if count = 1 then some (Sum.inl (results.getD 0 "")) else some (Sum.inr results)

/-! ### Helper lemmas -/

@[simp]
lemma sumWeights_nil : sumWeights [] = 0 := rfl

@[simp]
lemma sumWeights_cons (c : Card) (cs : List Card) :
    sumWeights (c :: cs) = c.weight + sumWeights cs := by
  simp [sumWeights]

lemma sumWeights_append (l₁ l₂ : List Card) :
    sumWeights (l₁ ++ l₂) = sumWeights l₁ + sumWeights l₂ := by
  induction l₁ with
  | nil => simp
  | cons c cs ih => simp [ih]; ring

/-- A member's weight is at most the total when all weights are nonnegative. -/
lemma weight_le_sumWeights (cs : List Card) (c : Card)
    (hw : ∀ c' ∈ cs, 0 ≤ c'.weight) (hc : c ∈ cs) : c.weight ≤ sumWeights cs := by
  have hmem : c.weight ∈ cs.map Card.weight := List.mem_map_of_mem _ hc
  have hall : ∀ x ∈ cs.map Card.weight, (0:ℚ) ≤ x := by
    intro x hx
    rcases List.mem_map.mp hx with ⟨c', hc', rfl⟩
    exact hw c' hc'
  exact List.single_le_sum hall _ hmem

lemma sumWeights_nonneg (cs : List Card) (hw : ∀ c' ∈ cs, 0 ≤ c'.weight) :
    0 ≤ sumWeights cs := by
  induction cs with
  | nil => simp
  | cons c cs ih =>
    have := hw c (List.mem_cons_self c cs)
    have := ih (fun c' hc' => hw c' (List.mem_cons_of_mem _ hc'))
    simp only [sumWeights_cons]
    linarith

lemma sumWeights_set (cs : List Card) (i : Nat) (c c' : Card)
    (h : cs[i]? = some c) :
    sumWeights (cs.set i c') = sumWeights cs - c.weight + c'.weight := by
  induction cs generalizing i with
  | nil => simp at h
  | cons x tl ih =>
    cases i with
    | zero =>
      simp only [List.getElem?_cons_zero, Option.some.injEq] at h
      subst h
      simp [List.set]
      ring
    | succ j =>
      simp only [List.getElem?_cons_succ] at h
      simp [List.set, ih j h]
      ring

lemma findCardList_eq_some (cs : List Card) (n : String) (i : Nat) (c : Card)
    (h : findCardList cs n = some (i, c)) : c.name = n ∧ cs[i]? = some c := by
  induction cs generalizing i with
  | nil => simp [findCardList] at h
  | cons x tl ih =>
    by_cases hx : x.name = n
    · simp only [findCardList, if_pos hx, Option.some.injEq, Prod.mk.injEq] at h
      obtain ⟨rfl, rfl⟩ := h
      exact ⟨hx, by simp⟩
    · simp only [findCardList, if_neg hx, Option.map_eq_some'] at h
      obtain ⟨⟨j, c₀⟩, hj, hjc⟩ := h
      obtain ⟨rfl, rfl⟩ : j + 1 = i ∧ c₀ = c := by
        simpa [Prod.ext_iff] using hjc
      obtain ⟨h1, h2⟩ := ih j hj
      exact ⟨h1, by simpa using h2⟩

/-- Updating the found card with one of the same name keeps it the first match. -/
lemma findCardList_set_same_name (cs : List Card) (n : String) (i : Nat) (c c' : Card)
    (h : findCardList cs n = some (i, c)) (hn : c'.name = n) :
    findCardList (cs.set i c') n = some (i, c') := by
  induction cs generalizing i with
  | nil => simp [findCardList] at h
  | cons x tl ih =>
    by_cases hx : x.name = n
    · simp only [findCardList, if_pos hx, Option.some.injEq, Prod.mk.injEq] at h
      obtain ⟨rfl, rfl⟩ := h
      simp [List.set, findCardList, hn]
    · simp only [findCardList, if_neg hx, Option.map_eq_some'] at h
      obtain ⟨⟨j, c₀⟩, hj, hjc⟩ := h
      obtain ⟨rfl, rfl⟩ : j + 1 = i ∧ c₀ = c := by
        simpa [Prod.ext_iff] using hjc
      simp [List.set, findCardList, if_neg hx, ih j hj]

lemma findCardList_eq_none (cs : List Card) (n : String)
    (h : ∀ c ∈ cs, c.name ≠ n) : findCardList cs n = none := by
  induction cs with
  | nil => rfl
  | cons x tl ih =>
    have hx := h x (List.mem_cons_self x tl)
    simp [findCardList, if_neg hx, ih (fun c hc => h c (List.mem_cons_of_mem _ hc))]

/-- With distinct names, erasing the found card leaves no card with its name. -/
lemma findCardList_eraseIdx (cs : List Card) (n : String) (i : Nat) (c : Card)
    (hnodup : (cs.map Card.name).Nodup)
    (h : findCardList cs n = some (i, c)) :
    findCardList (cs.eraseIdx i) n = none := by
  induction cs generalizing i with
  | nil => simp [findCardList] at h
  | cons x tl ih =>
    simp only [List.map_cons, List.nodup_cons] at hnodup
    obtain ⟨hxn, htl⟩ := hnodup
    by_cases hx : x.name = n
    · simp only [findCardList, if_pos hx, Option.some.injEq, Prod.mk.injEq] at h
      obtain ⟨rfl, rfl⟩ := h
      simp only [List.eraseIdx]
      refine findCardList_eq_none tl n (fun c' hc' hc'n => hxn ?_)
      rw [hx, ← hc'n]
      exact List.mem_map_of_mem _ hc'
    · simp only [findCardList, if_neg hx, Option.map_eq_some'] at h
      obtain ⟨⟨j, c₀⟩, hj, hjc⟩ := h
      obtain ⟨rfl, rfl⟩ : j + 1 = i ∧ c₀ = c := by
        simpa [Prod.ext_iff] using hjc
      simp only [List.eraseIdx, findCardList, if_neg hx, ih j htl hj, Option.map_none']

/-- With distinct names, every member is the first (and only) match for its name. -/
lemma findCardList_mem_nodup (cs : List Card) (c : Card)
    (hnodup : (cs.map Card.name).Nodup) (hc : c ∈ cs) :
    ∃ i, findCardList cs c.name = some (i, c) := by
  induction cs with
  | nil => simp at hc
  | cons x tl ih =>
    simp only [List.map_cons, List.nodup_cons] at hnodup
    obtain ⟨hxn, htl⟩ := hnodup
    rcases List.mem_cons.mp hc with rfl | hmem
    · exact ⟨0, by simp [findCardList]⟩
    · have hx : x.name ≠ c.name := fun h => hxn (h ▸ List.mem_map_of_mem _ hmem)
      obtain ⟨j, hj⟩ := ih htl hmem
      exact ⟨j + 1, by simp [findCardList, if_neg hx, hj]⟩

/-- A different member survives erasure of index `i`. -/
lemma mem_eraseIdx_of_ne (cs : List Card) (i : Nat) (c c' : Card)
    (h : cs[i]? = some c) (hc' : c' ∈ cs) (hne : c' ≠ c) : c' ∈ cs.eraseIdx i := by
  induction cs generalizing i with
  | nil => simp at hc'
  | cons x tl ih =>
    cases i with
    | zero =>
      simp only [List.getElem?_cons_zero, Option.some.injEq] at h
      subst h
      simp only [List.eraseIdx]
      rcases List.mem_cons.mp hc' with rfl | hmem
      · exact absurd rfl hne
      · exact hmem
    | succ j =>
      simp only [List.getElem?_cons_succ] at h
      simp only [List.eraseIdx]
      rcases List.mem_cons.mp hc' with rfl | hmem
      · exact List.mem_cons_self _ _
      · exact List.mem_cons_of_mem _ (ih j h hmem)

/-- The bisection index stays inside the list. -/
lemma pickIndex_lt : ∀ (ws : List ℚ) (r : ℚ), ws ≠ [] → pickIndex ws r < ws.length
  | [], _, h => absurd rfl h
  | [_], _, _ => by simp [pickIndex]
  | w :: w2 :: ws, r, _ => by
    simp only [pickIndex]
    split
    · simp
    · exact Nat.succ_lt_succ (pickIndex_lt (w2 :: ws) (r - w) (by simp))

/-- Branch form of `set_normalized_probability` once the card is found. -/
lemma set_found_unfold (s : State) (name : String) (t : ℚ) (i : Nat) (c : Card)
    (h : find_card s name = some (i, c)) :
    set_normalized_probability s name t =
      (if t = 0 then (SetOutcome.ok, { s with cards := s.cards.eraseIdx i })
       else if total_weight s true - c.weight = 0 then
         (SetOutcome.ok, { s with cards := s.cards.set i { c with weight := 1 } })
       else if (100:ℚ) - t = 0 then (SetOutcome.divisionByZero, s)
       else (SetOutcome.ok, { s with cards := s.cards.set i { c with weight := max 0 (t * (total_weight s true - c.weight) / (100 - t)) } })) := by
  unfold set_normalized_probability
  rw [h]

/-! ### Example states used by witnesses and counterexamples -/

/-- Two untagged cards, nothing banned. -/
def exPlain : State := ⟨[⟨"A", 2, []⟩, ⟨"B", 3, []⟩], fun _ => false⟩

/-- A tagged card beside an untagged one, nothing banned. -/
def exTagged : State := ⟨[⟨"A", 1, ["x"]⟩, ⟨"B", 1, []⟩], fun _ => false⟩

/-- A single tagged card, nothing banned. -/
def exLonely : State := ⟨[⟨"A", 1, ["x"]⟩], fun _ => false⟩

/-- An untagged card beside a card whose tag is banned. -/
def exBanned : State := ⟨[⟨"A", 1, []⟩, ⟨"B", 1, ["x"]⟩], fun t => t == "x"⟩

/-- A single unbanned card. -/
def exSingle : State := ⟨[⟨"A", 1, []⟩], fun _ => false⟩

/-- A single tagged card of weight zero. -/
def exZeroTag : State := ⟨[⟨"A", 0, ["x"]⟩], fun _ => false⟩

/-! ### Claims -/

/-- C1: for an existing card and `targetPercent ≠ 0`, `set_normalized_probability`
computes `othersWeight` as the total over ALL cards (banned included) minus the
card's weight; when `othersWeight = 0` it sets the weight to 1, and otherwise
(for `targetPercent ≠ 100`) to `max 0 (targetPercent·othersWeight/(100−targetPercent))`,
leaving every other card and the ban map unchanged. -/
theorem set_normalized_probability_formula (s : State) (name : String) (t : ℚ)
    (i : Nat) (c : Card)
    (hfind : find_card s name = some (i, c)) (ht : t ≠ 0) :
    (total_weight s true - c.weight = 0 →
      set_normalized_probability s name t =
        (SetOutcome.ok, { s with cards := s.cards.set i { c with weight := 1 } })) ∧
    (total_weight s true - c.weight ≠ 0 → t ≠ 100 →
      set_normalized_probability s name t =
        (SetOutcome.ok, { s with cards := s.cards.set i { c with weight := max 0 (t * (total_weight s true - c.weight) / (100 - t)) } })) ∧
    (∀ j, j ≠ i → (set_normalized_probability s name t).2.cards[j]? = s.cards[j]?) ∧
    (set_normalized_probability s name t).2.ban_status = s.ban_status := by
  have hunfold := set_found_unfold s name t i c hfind
  by_cases h0 : total_weight s true - c.weight = 0
  · have heq : set_normalized_probability s name t =
        (SetOutcome.ok, { s with cards := s.cards.set i { c with weight := 1 } }) := by
      rw [hunfold, if_neg ht, if_pos h0]
    refine ⟨fun _ => heq, fun h => absurd h0 h, ?_, ?_⟩
    · intro j hj
      simp only [heq]
      exact List.getElem?_set_ne (Ne.symm hj)
    · rw [heq]
  · by_cases h100 : t = 100
    · have heq : set_normalized_probability s name t = (SetOutcome.divisionByZero, s) := by
        rw [hunfold, if_neg ht, if_neg h0, if_pos (by rw [h100]; ring)]
      refine ⟨fun h => absurd h h0, fun _ h => absurd h100 h, ?_, ?_⟩
      · intro j _
        rw [heq]
      · rw [heq]
    · have hne : (100:ℚ) - t ≠ 0 := fun h => h100 (by linarith)
      have heq : set_normalized_probability s name t =
          (SetOutcome.ok, { s with cards := s.cards.set i { c with weight := max 0 (t * (total_weight s true - c.weight) / (100 - t)) } }) := by
        rw [hunfold, if_neg ht, if_neg h0, if_neg hne]
      refine ⟨fun h => absurd h h0, fun _ _ => heq, ?_, ?_⟩
      · intro j hj
        simp only [heq]
        exact List.getElem?_set_ne (Ne.symm hj)
      · rw [heq]

/-- Witness for C1 at a concrete two-card registry and target 50. -/
theorem set_normalized_probability_formula_witness :
    set_normalized_probability exPlain "A" 50 =
      (SetOutcome.ok, { exPlain with cards := exPlain.cards.set 0 { name := "A", weight := max 0 (50 * (total_weight exPlain true - 2) / (100 - 50)), tags := [] } }) :=
  (set_normalized_probability_formula exPlain "A" 50 0 ⟨"A", 2, []⟩ (by decide)
    (by norm_num)).2.1 (by norm_num [total_weight, sumWeights, exPlain]) (by norm_num)

/-- C5: `set_normalized_probability(name, 100)` with nonzero `othersWeight`
fails with the division error (caught at the command boundary, the spec's
unsatisfiable-constraint condition) and returns the state unchanged, so no
stored weight is modified. -/
theorem set_full_percent_fails (s : State) (name : String) (i : Nat) (c : Card)
    (hfind : find_card s name = some (i, c))
    (hothers : total_weight s true - c.weight ≠ 0) :
    set_normalized_probability s name 100 = (SetOutcome.divisionByZero, s) := by
  rw [set_found_unfold s name 100 i c hfind]
  split_ifs with h1 h2
  · exact absurd h1 (by norm_num)
  · rfl
  · exact absurd (by norm_num : (100:ℚ) - 100 = 0) h2

/-- Witness for C5: target 100 on a two-card registry fails and changes nothing. -/
theorem set_full_percent_fails_witness :
    set_normalized_probability exPlain "A" 100 = (SetOutcome.divisionByZero, exPlain) :=
  set_full_percent_fails exPlain "A" 0 ⟨"A", 2, []⟩ (by decide)
    (by norm_num [total_weight, sumWeights, exPlain])

/-- C6: `set_normalized_probability(name, 0)` deletes the card: the result is
the registry with that index erased, a subsequent lookup of `name` fails, and
every other card is still present; the ban map is untouched. -/
theorem set_zero_deletes (s : State) (name : String) (i : Nat) (c : Card)
    (hnodup : (s.cards.map Card.name).Nodup)
    (hfind : find_card s name = some (i, c)) :
    set_normalized_probability s name 0 =
      (SetOutcome.ok, { s with cards := s.cards.eraseIdx i }) ∧
    find_card (set_normalized_probability s name 0).2 name = none ∧
    (∀ c' ∈ s.cards, c' ≠ c → c' ∈ (set_normalized_probability s name 0).2.cards) ∧
    (set_normalized_probability s name 0).2.ban_status = s.ban_status := by
  have heq : set_normalized_probability s name 0 =
      (SetOutcome.ok, { s with cards := s.cards.eraseIdx i }) := by
    rw [set_found_unfold s name 0 i c hfind, if_pos rfl]
  refine ⟨heq, ?_, ?_, by rw [heq]⟩
  · rw [heq]
    exact findCardList_eraseIdx s.cards name i c hnodup hfind
  · intro c' hc' hne
    rw [heq]
    exact mem_eraseIdx_of_ne s.cards i c c'
      (findCardList_eq_some s.cards name i c hfind).2 hc' hne

/-- Witness for C6: after setting card A's probability to 0, looking A up fails. -/
theorem set_zero_deletes_witness :
    find_card (set_normalized_probability exPlain "A" 0).2 "A" = none :=
  (set_zero_deletes exPlain "A" 0 ⟨"A", 2, []⟩ (by decide) (by decide)).2.1

/-- C10: a negative target with nonzero `othersWeight` does not delete the card:
the solved weight is negative, the `max 0` clamp stores exactly 0, and the card
is still found by a subsequent lookup. -/
theorem set_negative_percent_clamps (s : State) (name : String) (t : ℚ) (i : Nat) (c : Card)
    (hw : ∀ c' ∈ s.cards, 0 ≤ c'.weight)
    (hfind : find_card s name = some (i, c))
    (ht : t < 0)
    (hothers : total_weight s true - c.weight ≠ 0) :
    set_normalized_probability s name t =
      (SetOutcome.ok, { s with cards := s.cards.set i { c with weight := 0 } }) ∧
    find_card (set_normalized_probability s name t).2 name = some (i, { c with weight := 0 }) := by
  obtain ⟨hcn, hci⟩ := findCardList_eq_some s.cards name i c hfind
  have hmem : c ∈ s.cards := List.getElem?_mem hci
  have hle : c.weight ≤ total_weight s true := by
    simpa [total_weight] using weight_le_sumWeights s.cards c hw hmem
  have hpos : 0 < total_weight s true - c.weight :=
    lt_of_le_of_ne (by linarith) (Ne.symm hothers)
  have hmax : max 0 (t * (total_weight s true - c.weight) / (100 - t)) = 0 := by
    have h100 : (0:ℚ) < 100 - t := by linarith
    have hnp : t * (total_weight s true - c.weight) / (100 - t) ≤ 0 := by
      apply div_nonpos_of_nonpos_of_nonneg
      · nlinarith
      · linarith
    exact max_eq_left hnp
  have heq : set_normalized_probability s name t =
      (SetOutcome.ok, { s with cards := s.cards.set i { c with weight := max 0 (t * (total_weight s true - c.weight) / (100 - t)) } }) := by
    rw [set_found_unfold s name t i c hfind]
    split_ifs with h1 h2
    · exact absurd h1 (by linarith)
    · exfalso; linarith
    · rfl
  rw [hmax] at heq
  refine ⟨heq, ?_⟩
  rw [heq]
  exact findCardList_set_same_name s.cards name i c _ hfind hcn

/-- Witness for C10: target −50 on card A clamps its weight to 0 and keeps it. -/
theorem set_negative_percent_clamps_witness :
    set_normalized_probability exPlain "A" (-50) =
      (SetOutcome.ok, { exPlain with cards := exPlain.cards.set 0 { name := "A", weight := 0, tags := [] } }) :=
  (set_negative_percent_clamps exPlain "A" (-50) 0 ⟨"A", 2, []⟩ (by decide) (by decide)
    (by norm_num) (by norm_num [total_weight, sumWeights, exPlain])).1

/-- Branch form of `get_normalized_probability` once the card is found. -/
lemma get_norm_found (s : State) (name : String) (i : Nat) (c : Card)
    (h : find_card s name = some (i, c)) :
    get_normalized_probability s name =
      (if is_card_banned s c then 0
       else if total_weight s false = 0 then 0
       else c.weight / total_weight s false * 100) := by
  unfold get_normalized_probability
  rw [h]

/-- C4 counterexample: with card B's tag banned, setting A to 50 % and
re-reading its probability gives 100 %, because the solver counts banned
weight in the total but the probability query does not. -/
theorem set_then_get_mismatch :
    find_card exBanned "A" = some (0, ⟨"A", 1, []⟩) ∧
    (0:ℚ) < 50 ∧ (50:ℚ) < 100 ∧
    0 < total_weight exBanned true - 1 ∧
    get_normalized_probability (set_normalized_probability exBanned "A" 50).2 "A" ≠ 50 := by
  refine ⟨by decide, by norm_num, by norm_num,
    by norm_num [total_weight, sumWeights, exBanned], ?_⟩
  norm_num [set_normalized_probability, find_card, findCardList, total_weight, sumWeights,
    get_normalized_probability, is_card_banned, exBanned, List.filter]

/-- With no banned card the non-banned total equals the full total. -/
lemma total_weight_false_of_noban (s : State)
    (h : ∀ c ∈ s.cards, is_card_banned s c = false) :
    total_weight s false = sumWeights s.cards := by
  unfold total_weight
  simp only [Bool.false_eq_true, if_false]
  congr 1
  refine List.filter_eq_self.mpr (fun c hc => ?_)
  rw [h c hc]
  rfl

/-- C4 (amended): when no card is banned, setting an existing card to
`0 < targetPercent < 100` with positive other-weight and recomputing its
normalized probability yields exactly `targetPercent`.  (As stated the claim
fails once a banned card exists, since the solver's total includes banned
weight while the probability query excludes it.) -/
theorem set_then_get_roundtrip (s : State) (name : String) (t : ℚ) (i : Nat) (c : Card)
    (hnoban : ∀ c' ∈ s.cards, is_card_banned s c' = false)
    (hfind : find_card s name = some (i, c))
    (ht0 : 0 < t) (ht100 : t < 100)
    (hothers : 0 < total_weight s true - c.weight) :
    get_normalized_probability (set_normalized_probability s name t).2 name = t := by
  obtain ⟨hcn, hci⟩ := findCardList_eq_some s.cards name i c hfind
  have hmem : c ∈ s.cards := List.getElem?_mem hci
  have h100 : (0:ℚ) < 100 - t := by linarith
  have hwpos : 0 < t * (total_weight s true - c.weight) / (100 - t) :=
    div_pos (mul_pos ht0 hothers) h100
  have hmax : max 0 (t * (total_weight s true - c.weight) / (100 - t)) =
      t * (total_weight s true - c.weight) / (100 - t) := max_eq_right (le_of_lt hwpos)
  have heq : set_normalized_probability s name t =
      (SetOutcome.ok, { s with cards := s.cards.set i { c with weight := t * (total_weight s true - c.weight) / (100 - t) } }) := by
    rw [set_found_unfold s name t i c hfind]
    split_ifs with h1 h2 h3
    · exact absurd h1 (by linarith)
    · exact absurd h2 (ne_of_gt hothers)
    · exfalso; linarith
    · rw [hmax]
  rw [heq]
  set W := t * (total_weight s true - c.weight) / (100 - t) with hW
  set s' : State := { s with cards := s.cards.set i { c with weight := W } } with hs'
  have hfind' : find_card s' name = some (i, { c with weight := W }) :=
    findCardList_set_same_name s.cards name i c _ hfind hcn
  rw [get_norm_found s' name i _ hfind']
  have hnoban' : ∀ c'' ∈ s'.cards, is_card_banned s' c'' = false := by
    intro c'' hc''
    have hc2 : c'' ∈ s.cards.set i { c with weight := W } := hc''
    rcases List.mem_or_eq_of_mem_set hc2 with h | rfl
    · exact hnoban c'' h
    · exact hnoban c hmem
  have htot : total_weight s' false = sumWeights s'.cards :=
    total_weight_false_of_noban s' hnoban'
  have hsum : sumWeights s'.cards = (total_weight s true - c.weight) + W := by
    show sumWeights (s.cards.set i { c with weight := W }) = _
    rw [sumWeights_set s.cards i c _ hci]
    have htw : total_weight s true = sumWeights s.cards := rfl
    rw [← htw]
  have hbanned : is_card_banned s' { c with weight := W } = false := hnoban c hmem
  rw [hbanned]
  simp only [Bool.false_eq_true, if_false]
  rw [htot, hsum]
  have hd : (total_weight s true - c.weight) + W ≠ 0 := ne_of_gt (by linarith)
  rw [if_neg hd]
  rw [hW]
  field_simp
  ring

/-- Witness for C4's amended theorem on an unbanned two-card registry. -/
theorem set_then_get_roundtrip_witness :
    get_normalized_probability (set_normalized_probability exPlain "A" 50).2 "A" = 50 :=
  set_then_get_roundtrip exPlain "A" 50 0 ⟨"A", 2, []⟩ (by decide) (by decide)
    (by norm_num) (by norm_num) (by norm_num [total_weight, sumWeights, exPlain])

/-- Scaling the tagged cards commutes with selecting them. -/
lemma filter_map_scale_tagged (cs : List Card) (tag : String) (k : ℚ) :
    ((cs.map (fun c => if c.tags.contains tag then { c with weight := c.weight * k } else c)).filter
      (fun c => c.tags.contains tag)) =
    (cs.filter (fun c => c.tags.contains tag)).map (fun c => { c with weight := c.weight * k }) := by
  induction cs with
  | nil => rfl
  | cons x tl ih =>
    by_cases hx : tag ∈ x.tags
    · simp [List.filter_cons, hx]
      simpa using ih
    · simp [List.filter_cons, hx]
      simpa using ih

/-- Scaling the tagged cards leaves the untagged selection untouched. -/
lemma filter_map_scale_untagged (cs : List Card) (tag : String) (k : ℚ) :
    ((cs.map (fun c => if c.tags.contains tag then { c with weight := c.weight * k } else c)).filter
      (fun c => !(c.tags.contains tag))) =
    cs.filter (fun c => !(c.tags.contains tag)) := by
  induction cs with
  | nil => rfl
  | cons x tl ih =>
    by_cases hx : tag ∈ x.tags
    · simp [List.filter_cons, hx]
      simpa using ih
    · simp [List.filter_cons, hx]
      simpa using ih

/-- Multiplying every weight by `k` multiplies the sum by `k`. -/
lemma sumWeights_map_mul (cs : List Card) (k : ℚ) :
    sumWeights (cs.map (fun c => { c with weight := c.weight * k })) = k * sumWeights cs := by
  induction cs with
  | nil => simp
  | cons x tl ih => simp [ih]; ring

/-- The total splits into the tagged and untagged parts. -/
lemma sumWeights_filter_split (cs : List Card) (p : Card → Bool) :
    sumWeights cs = sumWeights (cs.filter p) + sumWeights (cs.filter (fun c => !(p c))) := by
  induction cs with
  | nil => simp
  | cons x tl ih =>
    by_cases hx : p x
    · simp [List.filter_cons, hx, ih]; ring
    · simp [List.filter_cons, hx, ih]; ring

/-- Branch form of `adjust_tag_probability` in the proportional-rescale case. -/
lemma adjust_unfold_scale (s : State) (tag : String) (t : ℚ)
    (hne : (s.cards.filter (fun c => c.tags.contains tag)).isEmpty = false)
    (ht0 : ¬ t = 0) (ht100 : ¬ t = 100) (htw : ¬ tagWeight s tag = 0) :
    adjust_tag_probability s tag t =
      (true, { s with cards := s.cards.map (fun c => if c.tags.contains tag then { c with weight := c.weight * (t * otherWeight s tag / (tagWeight s tag * (100 - t))) } else c) }) := by
  have hne' : ¬ ((s.cards.filter (fun c => c.tags.contains tag)).isEmpty = true) := by
    rw [hne]
    exact Bool.false_ne_true
  unfold adjust_tag_probability
  rw [if_neg hne', if_neg ht0, if_neg ht100, if_neg htw]

/-- C3 (spec invariant broken by the code): from a reachable state whose weights
are all nonnegative, `adjust_tag_probability` with target −50 succeeds and
stores a negative weight (−1/3) on the tagged card, because the scale factor
`k = t·otherWeight/(tagWeight·(100−t))` is negative and is applied unclamped. -/
theorem adjust_negative_target_negative_weight :
    exTagged.cards.all (fun c => decide (0 ≤ c.weight)) = true ∧
    (adjust_tag_probability exTagged "x" (-50)).1 = true ∧
    ∃ c ∈ (adjust_tag_probability exTagged "x" (-50)).2.cards, c.weight < 0 := by
  have heq : adjust_tag_probability exTagged "x" (-50) =
      (true, { exTagged with cards := exTagged.cards.map (fun c => if c.tags.contains "x" then { c with weight := c.weight * ((-50) * otherWeight exTagged "x" / (tagWeight exTagged "x" * (100 - (-50)))) } else c) }) := by
    refine adjust_unfold_scale exTagged "x" (-50) (by decide) (by norm_num) (by norm_num) ?_
    norm_num [tagWeight, sumWeights, exTagged, List.filter]
  refine ⟨?_, ?_, ?_⟩
  · decide
  · rw [heq]
  · refine ⟨⟨"A", 1 * ((-50) * otherWeight exTagged "x" / (tagWeight exTagged "x" * (100 - (-50)))), ["x"]⟩, ?_, ?_⟩
    · rw [heq]
      simp [exTagged]
    · norm_num [tagWeight, otherWeight, sumWeights, exTagged, List.filter]

/-- C2 counterexample: a lone tagged card with no untagged weight.  The rescale
"succeeds" with factor 0, zeroing the pool, so the tagged share afterwards is
0/0, not the requested 50 %. -/
theorem adjust_tag_share_fails_zero_other :
    (exLonely.cards.filter (fun c => c.tags.contains "x")).isEmpty = false ∧
    (0:ℚ) < 50 ∧ (50:ℚ) < 100 ∧ 0 < tagWeight exLonely "x" ∧
    (adjust_tag_probability exLonely "x" 50).1 = true ∧
    tagWeight (adjust_tag_probability exLonely "x" 50).2 "x" /
      total_weight (adjust_tag_probability exLonely "x" 50).2 true ≠ 50 / 100 := by
  have heq : adjust_tag_probability exLonely "x" 50 =
      (true, { exLonely with cards := exLonely.cards.map (fun c => if c.tags.contains "x" then { c with weight := c.weight * (50 * otherWeight exLonely "x" / (tagWeight exLonely "x" * (100 - 50))) } else c) }) := by
    refine adjust_unfold_scale exLonely "x" 50 (by decide) (by norm_num) (by norm_num) ?_
    norm_num [tagWeight, sumWeights, exLonely, List.filter]
  refine ⟨by decide, by norm_num, by norm_num, ?_, ?_, ?_⟩
  · norm_num [tagWeight, sumWeights, exLonely, List.filter]
  · rw [heq]
  · rw [heq]
    norm_num [tagWeight, otherWeight, total_weight, sumWeights, exLonely, List.filter]

/-- C2 (amended): with a tagged card present, `0 < targetPercent < 100`,
positive tagged weight and positive untagged weight, the rescale succeeds,
multiplies exactly the tagged cards' weights by the single factor
`k = t·otherWeight/(tagWeight·(100−t))` (untagged cards unchanged), the tagged
share of the new total is exactly `targetPercent/100`, and pairwise ratios of
tagged weights are preserved.  (As stated the claim fails when the untagged
weight is zero: the scale factor is then 0 and the final share is 0/0.) -/
theorem adjust_tag_probability_rescale (s : State) (tag : String) (t : ℚ)
    (hne : (s.cards.filter (fun c => c.tags.contains tag)).isEmpty = false)
    (ht0 : 0 < t) (ht100 : t < 100)
    (htw : 0 < tagWeight s tag) (how : 0 < otherWeight s tag) :
    (adjust_tag_probability s tag t).1 = true ∧
    (adjust_tag_probability s tag t).2.cards =
      s.cards.map (fun c => if c.tags.contains tag then { c with weight := c.weight * (t * otherWeight s tag / (tagWeight s tag * (100 - t))) } else c) ∧
    (∀ (j : Nat) (cj : Card), s.cards[j]? = some cj → cj.tags.contains tag = false →
      (adjust_tag_probability s tag t).2.cards[j]? = some cj) ∧
    tagWeight (adjust_tag_probability s tag t).2 tag /
      total_weight (adjust_tag_probability s tag t).2 true = t / 100 ∧
    (∀ (j l : Nat) (cj cl : Card), s.cards[j]? = some cj → s.cards[l]? = some cl →
      cj.tags.contains tag = true → cl.tags.contains tag = true →
      ∃ cj' cl', (adjust_tag_probability s tag t).2.cards[j]? = some cj' ∧
        (adjust_tag_probability s tag t).2.cards[l]? = some cl' ∧
        cj'.weight * cl.weight = cj.weight * cl'.weight) := by
  have heq := adjust_unfold_scale s tag t hne (ne_of_gt ht0) (ne_of_lt ht100) (ne_of_gt htw)
  have h100 : (0:ℚ) < 100 - t := by linarith
  refine ⟨by simp [heq], by simp [heq], ?_, ?_, ?_⟩
  · intro j cj hj hcj
    rw [heq]
    simp only [List.getElem?_map, hj, Option.map_some']
    have hcj' : ¬ (tag ∈ cj.tags) := by simpa using hcj
    simp [hcj']
  · rw [heq]
    have htagw : tagWeight ({ s with cards := s.cards.map (fun c => if c.tags.contains tag then { c with weight := c.weight * (t * otherWeight s tag / (tagWeight s tag * (100 - t))) } else c) } : State) tag =
        (t * otherWeight s tag / (tagWeight s tag * (100 - t))) * tagWeight s tag := by
      show sumWeights ((s.cards.map (fun c => if c.tags.contains tag then { c with weight := c.weight * (t * otherWeight s tag / (tagWeight s tag * (100 - t))) } else c)).filter (fun c => c.tags.contains tag)) = _
      rw [filter_map_scale_tagged]
      exact sumWeights_map_mul _ _
    have htotw : total_weight ({ s with cards := s.cards.map (fun c => if c.tags.contains tag then { c with weight := c.weight * (t * otherWeight s tag / (tagWeight s tag * (100 - t))) } else c) } : State) true =
        (t * otherWeight s tag / (tagWeight s tag * (100 - t))) * tagWeight s tag + otherWeight s tag := by
      show sumWeights (s.cards.map (fun c => if c.tags.contains tag then { c with weight := c.weight * (t * otherWeight s tag / (tagWeight s tag * (100 - t))) } else c)) = _
      rw [sumWeights_filter_split (s.cards.map (fun c => if c.tags.contains tag then { c with weight := c.weight * (t * otherWeight s tag / (tagWeight s tag * (100 - t))) } else c)) (fun c => c.tags.contains tag)]
      rw [filter_map_scale_tagged, filter_map_scale_untagged, sumWeights_map_mul]
      rfl
    rw [htagw, htotw]
    have hne1 : tagWeight s tag ≠ 0 := ne_of_gt htw
    have hne2 : otherWeight s tag ≠ 0 := ne_of_gt how
    have hne3 : (100:ℚ) - t ≠ 0 := ne_of_gt h100
    have hnum : (t * otherWeight s tag / (tagWeight s tag * (100 - t))) * tagWeight s tag =
        t * otherWeight s tag / (100 - t) := by
      field_simp
      ring
    have hden : t * otherWeight s tag / (100 - t) + otherWeight s tag =
        100 * otherWeight s tag / (100 - t) := by
      field_simp
      ring
    rw [hnum, hden]
    rw [div_div_div_cancel_right₀]
    · rw [div_eq_div_iff (by positivity) (by norm_num : (100:ℚ) ≠ 0)]
      ring
    · exact hne3
  · intro j l cj cl hj hl hcj hcl
    rw [heq]
    refine ⟨{ cj with weight := cj.weight * (t * otherWeight s tag / (tagWeight s tag * (100 - t))) },
      { cl with weight := cl.weight * (t * otherWeight s tag / (tagWeight s tag * (100 - t))) }, ?_, ?_, ?_⟩
    · simp only [List.getElem?_map, hj, Option.map_some']
      have hcj' : tag ∈ cj.tags := by simpa using hcj
      simp [hcj']
    · simp only [List.getElem?_map, hl, Option.map_some']
      have hcl' : tag ∈ cl.tags := by simpa using hcl
      simp [hcl']
    · dsimp only
      ring

/-- Witness for C2's amended theorem: rescaling tag `x` to 50 % on a registry
with one tagged and one untagged card of weight 1. -/
theorem adjust_tag_probability_rescale_witness :
    tagWeight (adjust_tag_probability exTagged "x" 50).2 "x" /
      total_weight (adjust_tag_probability exTagged "x" 50).2 true = 50 / 100 :=
  (adjust_tag_probability_rescale exTagged "x" 50 (by decide) (by norm_num) (by norm_num)
    (by norm_num [tagWeight, sumWeights, exTagged, List.filter])
    (by norm_num [otherWeight, sumWeights, exTagged, List.filter])).2.2.2.1

/-- C7: `adjust_tag_probability` fails exactly when no card carries the tag,
or the target is 100 while untagged weight exists, or the target is neither 0
nor 100 while the tagged weight is 0; every failure leaves the state unchanged
(each `return False` precedes the mutation loop). -/
theorem adjust_tag_probability_fail_iff (s : State) (tag : String) (t : ℚ) :
    ((adjust_tag_probability s tag t).1 = false ↔
      ((¬ ∃ c ∈ s.cards, tag ∈ c.tags) ∨
       (t = 100 ∧ 0 < otherWeight s tag) ∨
       (¬ t = 0 ∧ ¬ t = 100 ∧ tagWeight s tag = 0))) ∧
    ((adjust_tag_probability s tag t).1 = false → (adjust_tag_probability s tag t).2 = s) := by
  have hmem : (s.cards.filter (fun c => c.tags.contains tag)).isEmpty = true ↔
      ¬ ∃ c ∈ s.cards, tag ∈ c.tags := by
    rw [List.isEmpty_iff]
    constructor
    · intro h hex
      obtain ⟨c, hc, htag⟩ := hex
      have hcf : c ∈ s.cards.filter (fun c => c.tags.contains tag) :=
        List.mem_filter.mpr ⟨hc, by simpa using htag⟩
      rw [h] at hcf
      simp at hcf
    · intro h
      by_contra hne
      obtain ⟨c, hc⟩ := List.exists_mem_of_ne_nil _ hne
      have hcf := List.mem_filter.mp hc
      exact h ⟨c, hcf.1, by simpa using hcf.2⟩
  simp only [adjust_tag_probability]
  split_ifs with h1 h2 h3 h4 h5
  · exact ⟨iff_of_true rfl (Or.inl (hmem.mp h1)), fun _ => rfl⟩
  · refine ⟨iff_of_false (by simp) ?_, fun h => by simp at h⟩
    rintro (h | ⟨ha, _⟩ | ⟨ha, _, _⟩)
    · exact h1 (hmem.mpr h)
    · rw [h2] at ha; norm_num at ha
    · exact ha h2
  · exact ⟨iff_of_true rfl (Or.inr (Or.inl ⟨h3, h4⟩)), fun _ => rfl⟩
  · refine ⟨iff_of_false (by simp) ?_, fun h => by simp at h⟩
    rintro (h | ⟨_, hb⟩ | ⟨_, ha, _⟩)
    · exact h1 (hmem.mpr h)
    · exact h4 hb
    · exact ha h3
  · exact ⟨iff_of_true rfl (Or.inr (Or.inr ⟨h2, h3, h5⟩)), fun _ => rfl⟩
  · refine ⟨iff_of_false (by simp) ?_, fun h => by simp at h⟩
    rintro (h | ⟨ha, _⟩ | ⟨_, _, hb⟩)
    · exact h1 (hmem.mpr h)
    · exact h3 ha
    · exact h5 hb

/-- Witness for C7: a zero-weight tagged card makes a 50 % rescale fail with
the state unchanged. -/
theorem adjust_tag_probability_fail_iff_witness :
    (adjust_tag_probability exZeroTag "x" 50).1 = false ∧
    (adjust_tag_probability exZeroTag "x" 50).2 = exZeroTag := by
  have h := adjust_tag_probability_fail_iff exZeroTag "x" 50
  have hfail : (adjust_tag_probability exZeroTag "x" 50).1 = false :=
    h.1.mpr (Or.inr (Or.inr ⟨by norm_num, by norm_num,
      by norm_num [tagWeight, sumWeights, exZeroTag, List.filter]⟩))
  exact ⟨hfail, h.2 hfail⟩

/-- Every drawn card is taken from the list itself: the bisection index is in
range, so the default card is never used. -/
lemma getD_pickIndex_mem (cs : List Card) (r : ℚ) (d : Card) (h : cs ≠ []) :
    cs.getD (pickIndex (cs.map Card.weight) r) d ∈ cs := by
  have hlt : pickIndex (cs.map Card.weight) r < cs.length := by
    have := pickIndex_lt (cs.map Card.weight) r (by simpa using h)
    simpa using this
  rw [List.getD_eq_getElem?_getD, List.getElem?_eq_getElem hlt]
  exact List.getElem_mem hlt

/-- C8: `pick_card` reports "pool empty" (`none`) exactly when the non-banned
total weight is not positive; otherwise it returns one name for `count = 1`
and an ordered list of exactly `count` names for `count > 1`, and every
returned name names a non-banned card of the registry — for any draw oracle. -/
theorem pick_card_spec (s : State) (count : Nat) (rand : Nat → ℚ) (hc : 1 ≤ count) :
    (pick_card s count rand = none ↔
      ¬ (0 < sumWeights (s.cards.filter (fun c => !(is_card_banned s c))))) ∧
    (0 < sumWeights (s.cards.filter (fun c => !(is_card_banned s c))) →
      ((count = 1 → ∃ n, pick_card s count rand = some (Sum.inl n)) ∧
       (1 < count → ∃ l, pick_card s count rand = some (Sum.inr l) ∧ l.length = count) ∧
       (∀ n, (pick_card s count rand = some (Sum.inl n) ∨
              ∃ l, pick_card s count rand = some (Sum.inr l) ∧ n ∈ l) →
          ∃ c ∈ s.cards, c.name = n ∧ is_card_banned s c = false))) := by
  by_cases htot : sumWeights (s.cards.filter (fun c => !(is_card_banned s c))) ≤ 0
  · have hnone : pick_card s count rand = none := by
      simp only [pick_card]
      rw [if_pos htot]
    refine ⟨iff_of_true hnone (not_lt.mpr htot), fun hpos => absurd hpos (not_lt.mpr htot)⟩
  · have htot' : 0 < sumWeights (s.cards.filter (fun c => !(is_card_banned s c))) :=
      lt_of_not_le htot
    have hvalidne : s.cards.filter (fun c => !(is_card_banned s c)) ≠ [] := by
      intro h
      rw [h] at htot'
      simp [sumWeights] at htot'
    have hmemi : ∀ i : Nat,
        ∃ c ∈ s.cards,
          c.name = ((s.cards.filter (fun c => !(is_card_banned s c))).getD
            (pickIndex ((s.cards.filter (fun c => !(is_card_banned s c))).map Card.weight)
              (rand i)) { name := "", weight := 0, tags := [] }).name ∧
          is_card_banned s c = false := by
      intro i
      have hm := getD_pickIndex_mem (s.cards.filter (fun c => !(is_card_banned s c)))
        (rand i) { name := "", weight := 0, tags := [] } hvalidne
      have hf := List.mem_filter.mp hm
      exact ⟨_, hf.1, rfl, by simpa using hf.2⟩
    have heq : pick_card s count rand =
        (if count = 1 then
          some (Sum.inl (((List.range count).map
            (fun i => ((s.cards.filter (fun c => !(is_card_banned s c))).getD
              (pickIndex ((s.cards.filter (fun c => !(is_card_banned s c))).map Card.weight)
                (rand i)) { name := "", weight := 0, tags := [] }).name)).getD 0 ""))
        else
          some (Sum.inr ((List.range count).map
            (fun i => ((s.cards.filter (fun c => !(is_card_banned s c))).getD
              (pickIndex ((s.cards.filter (fun c => !(is_card_banned s c))).map Card.weight)
                (rand i)) { name := "", weight := 0, tags := [] }).name)))) := by
      simp only [pick_card]
      rw [if_neg htot]
    refine ⟨iff_of_false ?_ (not_not_intro htot'), fun _ => ⟨?_, ?_, ?_⟩⟩
    · rw [heq]
      split_ifs <;> simp
    · intro h1
      refine ⟨((List.range count).map
        (fun i => ((s.cards.filter (fun c => !(is_card_banned s c))).getD
          (pickIndex ((s.cards.filter (fun c => !(is_card_banned s c))).map Card.weight)
            (rand i)) { name := "", weight := 0, tags := [] }).name)).getD 0 "", ?_⟩
      rw [heq, if_pos h1]
    · intro hgt
      have hne1 : ¬ count = 1 := by omega
      refine ⟨(List.range count).map
        (fun i => ((s.cards.filter (fun c => !(is_card_banned s c))).getD
          (pickIndex ((s.cards.filter (fun c => !(is_card_banned s c))).map Card.weight)
            (rand i)) { name := "", weight := 0, tags := [] }).name), ?_, ?_⟩
      · rw [heq, if_neg hne1]
      · simp
    · intro n hn
      rcases hn with h | ⟨l, hl, hnl⟩
      · rw [heq] at h
        split_ifs at h with h1
        · simp only [Option.some.injEq, Sum.inl.injEq] at h
          subst h1
          simp only [List.range_succ, List.range_zero, List.nil_append, List.map_cons,
            List.map_nil, List.getD_cons_zero] at h
          rw [← h]
          exact hmemi 0
        · simp at h
      · rw [heq] at hl
        split_ifs at hl with h1
        · simp at hl
        · simp only [Option.some.injEq, Sum.inr.injEq] at hl
          subst hl
          obtain ⟨i, _, rfl⟩ := List.mem_map.mp hnl
          exact hmemi i

/-- Witness for C8: drawing twice from a one-card pool returns a two-name list. -/
theorem pick_card_spec_witness :
    ∃ l, pick_card exSingle 2 (fun _ => 0) = some (Sum.inr l) ∧ l.length = 2 :=
  ((pick_card_spec exSingle 2 (fun _ => 0) (by norm_num)).2
    (by norm_num [sumWeights, is_card_banned, exSingle, List.filter])).2.1 (by norm_num)

/-- C9: with a valid ban flag, `ban_tag` succeeds, rewrites only `tag`'s entry
in the ban map, and leaves every card untouched; afterwards every banned card
reports probability 0 and every unbanned card's probability satisfies
`prob · nonBannedTotal = weight · 100`, i.e. the remaining 100 % is shared in
proportion to the unchanged stored weights. -/
theorem ban_tag_spec (s : State) (tag status : String)
    (hstatus : stripString status = "0" ∨ stripString status = "1")
    (hnodup : (s.cards.map Card.name).Nodup)
    (hw : ∀ c ∈ s.cards, 0 ≤ c.weight) :
    (ban_tag s tag status).1 = true ∧
    (ban_tag s tag status).2.cards = s.cards ∧
    ((ban_tag s tag status).2.ban_status tag = (stripString status == "1")) ∧
    (∀ t', t' ≠ tag → (ban_tag s tag status).2.ban_status t' = s.ban_status t') ∧
    (∀ c ∈ s.cards, is_card_banned (ban_tag s tag status).2 c = true →
      get_normalized_probability (ban_tag s tag status).2 c.name = 0) ∧
    (∀ c ∈ s.cards, is_card_banned (ban_tag s tag status).2 c = false →
      get_normalized_probability (ban_tag s tag status).2 c.name *
        total_weight (ban_tag s tag status).2 false = c.weight * 100) := by
  set s2 : State := { s with ban_status := fun t => if t = tag then stripString status == "1" else s.ban_status t } with hs2
  have heq : ban_tag s tag status = (true, s2) := by
    unfold ban_tag
    rw [if_pos hstatus]
  rw [heq]
  refine ⟨rfl, rfl, ?_, ?_, ?_, ?_⟩
  · show s2.ban_status tag = (stripString status == "1")
    rw [hs2]
    simp
  · intro t' ht'
    show s2.ban_status t' = s.ban_status t'
    rw [hs2]
    simp only
    rw [if_neg ht']
  · intro c hc hbanned
    have hbanned' : is_card_banned s2 c = true := hbanned
    obtain ⟨i, hfind⟩ := findCardList_mem_nodup s.cards c hnodup hc
    have hfind2 : find_card s2 c.name = some (i, c) := hfind
    show get_normalized_probability s2 c.name = 0
    rw [get_norm_found s2 c.name i c hfind2]
    rw [if_pos hbanned']
  · intro c hc hub
    have hub' : is_card_banned s2 c = false := hub
    obtain ⟨i, hfind⟩ := findCardList_mem_nodup s.cards c hnodup hc
    have hfind2 : find_card s2 c.name = some (i, c) := hfind
    show get_normalized_probability s2 c.name * total_weight s2 false = c.weight * 100
    rw [get_norm_found s2 c.name i c hfind2]
    rw [if_neg (by rw [hub']; exact Bool.false_ne_true)]
    by_cases h0 : total_weight s2 false = 0
    · rw [if_pos h0, h0]
      have hcf : c ∈ s2.cards.filter (fun c' => !(is_card_banned s2 c')) :=
        List.mem_filter.mpr ⟨hc, by rw [hub']; rfl⟩
      have hle : c.weight ≤ sumWeights (s2.cards.filter (fun c' => !(is_card_banned s2 c'))) :=
        weight_le_sumWeights _ c (fun c' hc' => hw c' (List.mem_filter.mp hc').1) hcf
      have h0' : sumWeights (s2.cards.filter (fun c' => !(is_card_banned s2 c'))) = 0 := h0
      have hcw : c.weight = 0 := le_antisymm (by linarith) (hw c hc)
      rw [hcw]
      ring
    · rw [if_neg h0]
      field_simp

/-- Witness for C9: banning tag `x` drives the tagged card A to probability 0. -/
theorem ban_tag_spec_witness :
    get_normalized_probability (ban_tag exTagged "x" "1").2 "A" = 0 :=
  (ban_tag_spec exTagged "x" "1" (by decide) (by decide) (by decide)).2.2.2.2.1
    ⟨"A", 1, ["x"]⟩ (by decide) (by decide)

end PickCard
